import Mathlib

/-!
CyberGauntlet, challenge q3: `security.c`.

A shallow embedding of `process_key` (and of the `main` that calls it) from
`src/public/challenges/q3/security.c`, together with the properties of the
key transformation.

Memory model.  The function touches two buffers: the caller's `key` and the
local array `temp_key`.  Both are lists of bytes; every read and write is
bounds-checked and recorded in an access log, so that an access outside a
buffer is an explicit fault rather than undefined behaviour.  A `char` is
only ever moved around or compared with NUL, so a byte is a natural number
and its width plays no role.  The loop counters `i`, `start` and `end` are C
`int`s that stay within `0..5`; they are natural numbers here.
-/

namespace CyberGauntlet

/-- A C `char`, as its numeric value; `0` is NUL. -/
abbrev Byte := Nat

/-- The length of a key: `#define KEY_LENGTH 10`. -/
def KEY_LENGTH : Nat := 10

/-- The length of a half: `#define HALF_LENGTH 5`. -/
def HALF_LENGTH : Nat := 5

/-- The two buffers `process_key` works on. -/
inductive Region where
  | key
  | temp_key
  deriving DecidableEq, Repr

/-- One memory access: which buffer, read or write, and at which index. -/
structure Access where
  region : Region
  write : Bool
  index : Nat
  deriving DecidableEq, Repr

/-- The single way the bounds-checked model can fail: an access outside a buffer. -/
inductive Fault where
  | out_of_bounds (a : Access)
  deriving DecidableEq, Repr

/-- Memory during a call of `process_key`: the caller's buffer, the local
`temp_key`, and the log of accesses made so far (oldest first). -/
structure Mem where
  key : List Byte
  temp_key : List Byte
  log : List Access
  deriving DecidableEq, Repr

/-- The bytes of a region. -/
def Mem.bytes (m : Mem) : Region → List Byte
  | .key => m.key
  | .temp_key => m.temp_key

/-- Bounds-checked read `r[i]`. -/
def Mem.read (m : Mem) (r : Region) (i : Nat) : Except Fault (Byte × Mem) :=
  match (m.bytes r)[i]? with
  | some c => .ok (c, { m with log := m.log ++ [⟨r, false, i⟩] })
  | none => .error (.out_of_bounds ⟨r, false, i⟩)

/-- Bounds-checked write `r[i] = c`. -/
def Mem.store (m : Mem) (r : Region) (i : Nat) (c : Byte) : Except Fault Mem :=
  if i < (m.bytes r).length then
    match r with
    | .key => .ok { m with key := m.key.set i c, log := m.log ++ [⟨r, true, i⟩] }
    | .temp_key =>
      .ok { m with temp_key := m.temp_key.set i c, log := m.log ++ [⟨r, true, i⟩] }
  else .error (.out_of_bounds ⟨r, true, i⟩)

/-- Second loop of the C library's `strncpy`: `for (; i < n; i++) dst[i] = 0`,
with `left = n - i` bytes still to write. -/
def strncpy_pad (dst : Region) (dOff : Nat) (m : Mem) (i : Nat) : Nat → Except Fault Mem
  | 0 => .ok m
  | left + 1 => do
    let m ← m.store dst (dOff + i) 0
    strncpy_pad dst dOff m (i + 1) left

/-- First loop of the C library's `strncpy`:
`for (i = 0; i < n && src[i] != 0; i++) dst[i] = src[i]`, followed by the
padding loop; `left = n - i`. -/
def strncpy_copy (dst : Region) (dOff : Nat) (src : Region) (sOff : Nat)
    (m : Mem) (i : Nat) : Nat → Except Fault Mem
  | 0 => .ok m
  | left + 1 => do
    let (c, m) ← m.read src (sOff + i)
    if c = 0 then strncpy_pad dst dOff m i (left + 1)
    else do
      let m ← m.store dst (dOff + i) c
      strncpy_copy dst dOff src sOff m (i + 1) left

/-- The C library's `strncpy(dst + dOff, src + sOff, n)` (ISO C 7.24.2.4): at
most `n` bytes are copied, copying stops after a NUL, and the destination is
filled with NULs up to `n` bytes. -/
def strncpy (dst : Region) (dOff : Nat) (src : Region) (sOff : Nat) (n : Nat)
    (m : Mem) : Except Fault Mem :=
  strncpy_copy dst dOff src sOff m 0 n

/-- Memory at entry of `process_key`: `char temp_key[KEY_LENGTH + 1];` is not
initialised, its starting content is whatever `junk` holds. -/
def enter (junk : Nat → Byte) (key : List Byte) : Mem :=
  { key := key, temp_key := (List.range (KEY_LENGTH + 1)).map junk, log := [] }

/-- Line 7: `strncpy(temp_key, key + HALF_LENGTH, HALF_LENGTH);` -/
def copy_second_half (m : Mem) : Except Fault Mem :=
  strncpy .temp_key 0 .key HALF_LENGTH HALF_LENGTH m

/-- Lines 9-11: `for (int i = 0; i < HALF_LENGTH; i++) key[i + HALF_LENGTH] = key[i];` -/
def move_first_half (m : Mem) : Except Fault Mem :=
  (List.range HALF_LENGTH).foldlM
    (fun m i => do
      let (c, m) ← m.read .key i
      m.store .key (i + HALF_LENGTH) c)
    m

/-- Lines 13-15: `for (int i = 0; i < HALF_LENGTH; i++) key[i] = temp_key[i];` -/
def restore_from_temp (m : Mem) : Except Fault Mem :=
  (List.range HALF_LENGTH).foldlM
    (fun m i => do
      let (c, m) ← m.read .temp_key i
      m.store .key i c)
    m

/-- Result of the `while` loop: memory, the final `start` and `end`, and how
many times the body ran. -/
structure LoopExit where
  mem : Mem
  start : Nat
  stop : Nat
  swaps : Nat
  deriving DecidableEq, Repr

/-- Lines 19-25: `while (start < end) { temp = key[start]; key[start] = key[end];
key[end] = temp; start++; end--; }`.  The recursion is on `end`, which the
body decrements; with `end = 0` the test `start < end` is false. -/
def reverse_loop (m : Mem) (start : Nat) (swaps : Nat) : Nat → Except Fault LoopExit
  | 0 => .ok ⟨m, start, 0, swaps⟩
  | e + 1 =>
    if start < e + 1 then do
      let (temp, m) ← m.read .key start
      let (c, m) ← m.read .key (e + 1)
      let m ← m.store .key start c
      let m ← m.store .key (e + 1) temp
      reverse_loop m (start + 1) (swaps + 1) e
    else .ok ⟨m, start, e + 1, swaps⟩

/-- Lines 17-25: `int start = 0; int end = HALF_LENGTH - 1;` and the loop. -/
def reverse_first_half (m : Mem) : Except Fault LoopExit :=
  reverse_loop m 0 0 (HALF_LENGTH - 1)

/-- The function `void process_key(char *key)`, lines 5-26, run on the buffer `key` with
`temp_key` starting as `junk`.  Returns the final memory, or the first fault. -/
def process_key (junk : Nat → Byte) (key : List Byte) : Except Fault Mem := do
  let m ← copy_second_half (enter junk key)
  let m ← move_first_half m
  let m ← restore_from_temp m
  let r ← reverse_first_half m
  pure r.mem

/-- The buffer after `process_key`, when it completes. -/
def process_key_out (junk : Nat → Byte) (key : List Byte) : Option (List Byte) :=
  match process_key junk key with
  | .ok m => some m.key
  | .error _ => none

/-- The bytes of a string literal, without terminator. -/
def c_chars (s : String) : List Byte := s.toList.map Char.toNat

/-- A C string literal as an array initialiser: its bytes and the NUL. -/
def c_literal (s : String) : List Byte := c_chars s ++ [0]

/-- What `printf("%s", buf)` prints: the bytes before the first NUL. -/
def c_str (buf : List Byte) : List Byte := buf.takeWhile (fun c => c ≠ 0)

/-- The C library's `strlen`: index of the first NUL, if the buffer has one. -/
def strlen (buf : List Byte) : Option Nat :=
  if 0 ∈ buf then some (c_str buf).length else none

/-- The key of `main`: `char security_key[] = "A1B2C3D4E5";` -/
def security_key : List Byte := c_literal "A1B2C3D4E5"

/-- The program `int main()`, lines 28-34: the bytes written to standard output. -/
def main (junk : Nat → Byte) : Except Fault (List Byte) := do
  let line1 := c_chars "Initial Key: " ++ c_str security_key ++ c_chars "\n"
  let m ← process_key junk security_key
  let line2 := c_chars "Final Key: FLAG\x7b" ++ c_str m.key ++ c_chars "\x7d\n"
  pure (line1 ++ line2)

/-- What `strncpy` leaves in the destination for the source bytes `l` and
`n = l.length`: the bytes before the first NUL, then NULs. -/
def nul_padded (l : List Byte) : List Byte :=
  c_str l ++ List.replicate (l.length - (c_str l).length) 0

/-- Every access of the log is at an index in `0..9`. -/
def within_key_length (log : List Access) : Bool :=
  log.all (fun a => decide (a.index < KEY_LENGTH))

/-- No byte of `temp_key` is read before it has been written: every read of
`temp_key[i]` in the log comes after a write of `temp_key[i]`. -/
def temp_written_before_read : List Access → List Nat → Bool
  | [], _ => true
  | a :: log, written =>
    match a.region, a.write with
    | .temp_key, true => temp_written_before_read log (a.index :: written)
    | .temp_key, false => decide (a.index ∈ written) && temp_written_before_read log written
    | .key, _ => temp_written_before_read log written

/-- The C-style slice `l[a:b]`. -/
def slice (l : List Byte) (a b : Nat) : List Byte := (l.drop a).take (b - a)

/-- A key of 10 characters: the buffer holds at least `KEY_LENGTH` bytes and
none of the first `KEY_LENGTH` is NUL (a terminator may or may not follow). -/
def is_key (buf : List Byte) : Prop :=
  KEY_LENGTH ≤ buf.length ∧ 0 ∉ buf.take KEY_LENGTH

instance (buf : List Byte) : Decidable (is_key buf) := by
  unfold is_key
  infer_instance

/-- The inverse used for the round-trip check: `undo(K) = K[5:10] ++ reverse(K[0:5])`.
It is not part of `security.c`; it is the "undo" of the round-trip property. -/
def undo (k : List Byte) : List Byte :=
  slice k HALF_LENGTH KEY_LENGTH ++ (slice k 0 HALF_LENGTH).reverse

/-- Lines 6-15 of `process_key`: everything before the reversal loop. -/
def before_reverse (junk : Nat → Byte) (key : List Byte) : Except Fault Mem := do
  let m ← copy_second_half (enter junk key)
  let m ← move_first_half m
  restore_from_temp m

/-- The accesses of the reversal loop when it swaps `key[0]` with `key[4]` and
then `key[1]` with `key[3]`. -/
def two_swaps_log : List Access :=
  [⟨.key, false, 0⟩, ⟨.key, false, 4⟩, ⟨.key, true, 0⟩, ⟨.key, true, 4⟩,
   ⟨.key, false, 1⟩, ⟨.key, false, 3⟩, ⟨.key, true, 1⟩, ⟨.key, true, 3⟩]

/-- Calling `process_key` `n` times in a row on the same buffer; call number
`k` (counted down from `n`) finds `junk k` in its `temp_key`. -/
def process_key_times (junk : Nat → Nat → Byte) : Nat → List Byte → Option (List Byte)
  | 0, key => some key
  | n + 1, key => (process_key_out (junk (n + 1)) key).bind (process_key_times junk n)

theorem ten_cons {α : Type} (l : List α) (h : 10 ≤ l.length) :
    ∃ a0 a1 a2 a3 a4 a5 a6 a7 a8 a9 rest,
      l = a0 :: a1 :: a2 :: a3 :: a4 :: a5 :: a6 :: a7 :: a8 :: a9 :: rest := by
  match l, h with
  | a0 :: a1 :: a2 :: a3 :: a4 :: a5 :: a6 :: a7 :: a8 :: a9 :: rest, _ =>
    exact ⟨a0, a1, a2, a3, a4, a5, a6, a7, a8, a9, rest, rfl⟩

set_option maxHeartbeats 1600000 in
theorem process_key_cons (junk : Nat → Byte) (a0 a1 a2 a3 a4 a5 a6 a7 a8 a9 : Byte)
    (rest : List Byte) :
    ∃ m, process_key junk (a0 :: a1 :: a2 :: a3 :: a4 :: a5 :: a6 :: a7 :: a8 :: a9 :: rest)
        = .ok m ∧
      m.key = (nul_padded [a5, a6, a7, a8, a9]).reverse ++ [a0, a1, a2, a3, a4] ++ rest ∧
      m.temp_key = nul_padded [a5, a6, a7, a8, a9] ++
        [junk 5, junk 6, junk 7, junk 8, junk 9, junk 10] ∧
      within_key_length m.log = true ∧
      temp_written_before_read m.log [] = true ∧
      (⟨.key, true, 9⟩ : Access) ∈ m.log := by
  have hcases : a5 = 0 ∨ (a5 ≠ 0 ∧ a6 = 0) ∨ (a5 ≠ 0 ∧ a6 ≠ 0 ∧ a7 = 0) ∨
      (a5 ≠ 0 ∧ a6 ≠ 0 ∧ a7 ≠ 0 ∧ a8 = 0) ∨ (a5 ≠ 0 ∧ a6 ≠ 0 ∧ a7 ≠ 0 ∧ a8 ≠ 0 ∧ a9 = 0) ∨
      (a5 ≠ 0 ∧ a6 ≠ 0 ∧ a7 ≠ 0 ∧ a8 ≠ 0 ∧ a9 ≠ 0) := by tauto
  rcases hcases with h5 | ⟨h5, h6⟩ | ⟨h5, h6, h7⟩ | ⟨h5, h6, h7, h8⟩ | ⟨h5, h6, h7, h8, h9⟩ |
      ⟨h5, h6, h7, h8, h9⟩ <;>
    simp [process_key, copy_second_half, strncpy, strncpy_copy, strncpy_pad, move_first_half,
      restore_from_temp, reverse_first_half, reverse_loop, enter, Mem.read, Mem.store,
      Mem.bytes, HALF_LENGTH, KEY_LENGTH, bind, Except.bind, pure, Except.pure, List.range,
      List.range.loop, List.foldlM, nul_padded, c_str, within_key_length,
      temp_written_before_read, *]

/-- On a buffer shorter than `KEY_LENGTH` the run stops at an access to `key`
outside the buffer. -/
theorem process_key_short (junk : Nat → Byte) (key : List Byte) (hk : key.length < KEY_LENGTH) :
    ∃ a, process_key junk key = .error (.out_of_bounds a) ∧ a.region = .key ∧
      key.length ≤ a.index ∧ a.index < KEY_LENGTH := by
  rcases key with _ | ⟨a0, _ | ⟨a1, _ | ⟨a2, _ | ⟨a3, _ | ⟨a4, _ | ⟨a5, _ | ⟨a6, _ | ⟨a7,
    _ | ⟨a8, _ | ⟨a9, rest⟩⟩⟩⟩⟩⟩⟩⟩⟩⟩
  case cons.cons.cons.cons.cons.cons.cons.cons.cons.cons =>
    simp [KEY_LENGTH] at hk
    omega
  all_goals
    first
    | (by_cases h5 : a5 = 0 <;> by_cases h6 : a6 = 0 <;> by_cases h7 : a7 = 0 <;>
        by_cases h8 : a8 = 0 <;>
      simp [process_key, copy_second_half, strncpy, strncpy_copy, strncpy_pad,
        move_first_half, restore_from_temp, reverse_first_half, reverse_loop, enter, Mem.read,
        Mem.store, Mem.bytes, HALF_LENGTH, KEY_LENGTH, bind, Except.bind, pure, Except.pure,
        List.range, List.range.loop, List.foldlM, *])
    | (by_cases h5 : a5 = 0 <;> by_cases h6 : a6 = 0 <;> by_cases h7 : a7 = 0 <;>
      simp [process_key, copy_second_half, strncpy, strncpy_copy, strncpy_pad,
        move_first_half, restore_from_temp, reverse_first_half, reverse_loop, enter, Mem.read,
        Mem.store, Mem.bytes, HALF_LENGTH, KEY_LENGTH, bind, Except.bind, pure, Except.pure,
        List.range, List.range.loop, List.foldlM, *])
    | (by_cases h5 : a5 = 0 <;> by_cases h6 : a6 = 0 <;>
      simp [process_key, copy_second_half, strncpy, strncpy_copy, strncpy_pad,
        move_first_half, restore_from_temp, reverse_first_half, reverse_loop, enter, Mem.read,
        Mem.store, Mem.bytes, HALF_LENGTH, KEY_LENGTH, bind, Except.bind, pure, Except.pure,
        List.range, List.range.loop, List.foldlM, *])
    | (by_cases h5 : a5 = 0 <;>
      simp [process_key, copy_second_half, strncpy, strncpy_copy, strncpy_pad,
        move_first_half, restore_from_temp, reverse_first_half, reverse_loop, enter, Mem.read,
        Mem.store, Mem.bytes, HALF_LENGTH, KEY_LENGTH, bind, Except.bind, pure, Except.pure,
        List.range, List.range.loop, List.foldlM, *])
    | simp [process_key, copy_second_half, strncpy, strncpy_copy, strncpy_pad,
        move_first_half, restore_from_temp, reverse_first_half, reverse_loop, enter, Mem.read,
        Mem.store, Mem.bytes, HALF_LENGTH, KEY_LENGTH, bind, Except.bind, pure, Except.pure,
        List.range, List.range.loop, List.foldlM, *]

/-- Step 1 alone, on a buffer of at least 10 bytes: `key` is untouched and
`temp_key[0..4]` holds what `strncpy` makes of `key[5..9]`. -/
theorem copy_second_half_cons (junk : Nat → Byte) (a0 a1 a2 a3 a4 a5 a6 a7 a8 a9 : Byte)
    (rest : List Byte) :
    ∃ m, copy_second_half
        (enter junk (a0 :: a1 :: a2 :: a3 :: a4 :: a5 :: a6 :: a7 :: a8 :: a9 :: rest)) = .ok m ∧
      m.key = a0 :: a1 :: a2 :: a3 :: a4 :: a5 :: a6 :: a7 :: a8 :: a9 :: rest ∧
      m.temp_key = nul_padded [a5, a6, a7, a8, a9] ++
        [junk 5, junk 6, junk 7, junk 8, junk 9, junk 10] := by
  have hcases : a5 = 0 ∨ (a5 ≠ 0 ∧ a6 = 0) ∨ (a5 ≠ 0 ∧ a6 ≠ 0 ∧ a7 = 0) ∨
      (a5 ≠ 0 ∧ a6 ≠ 0 ∧ a7 ≠ 0 ∧ a8 = 0) ∨ (a5 ≠ 0 ∧ a6 ≠ 0 ∧ a7 ≠ 0 ∧ a8 ≠ 0 ∧ a9 = 0) ∨
      (a5 ≠ 0 ∧ a6 ≠ 0 ∧ a7 ≠ 0 ∧ a8 ≠ 0 ∧ a9 ≠ 0) := by tauto
  rcases hcases with h5 | ⟨h5, h6⟩ | ⟨h5, h6, h7⟩ | ⟨h5, h6, h7, h8⟩ | ⟨h5, h6, h7, h8, h9⟩ |
      ⟨h5, h6, h7, h8, h9⟩ <;>
    simp [copy_second_half, strncpy, strncpy_copy, strncpy_pad, enter, Mem.read, Mem.store,
      Mem.bytes, HALF_LENGTH, KEY_LENGTH, bind, Except.bind, List.range, List.range.loop,
      nul_padded, c_str, *]

/-- When `strncpy` copies `key[5..9]` unchanged: exactly when every byte from
the first NUL on is NUL. -/
theorem nul_padded_eq_iff (a5 a6 a7 a8 a9 : Byte) :
    nul_padded [a5, a6, a7, a8, a9] = [a5, a6, a7, a8, a9] ↔
      ∀ c ∈ [a5, a6, a7, a8, a9].dropWhile (fun c => c ≠ 0), c = 0 := by
  by_cases h5 : a5 = 0 <;> by_cases h6 : a6 = 0 <;> by_cases h7 : a7 = 0 <;>
    by_cases h8 : a8 = 0 <;> by_cases h9 : a9 = 0 <;>
    simp [nul_padded, c_str, *] <;> tauto

theorem dropWhile_nul (buf : List Byte) (h : 0 ∈ buf) :
    ∃ rest, buf.dropWhile (fun c => c ≠ 0) = 0 :: rest := by
  induction buf with
  | nil => simp at h
  | cons x xs ih =>
    by_cases hx : x = 0
    · exact ⟨xs, by simp [hx]⟩
    · have hxs : 0 ∈ xs := by
        rcases List.mem_cons.mp h with h0 | h0
        · exact absurd h0.symm hx
        · exact h0
      obtain ⟨rest, hr⟩ := ih hxs
      exact ⟨rest, by simpa [List.dropWhile_cons, hx] using hr⟩

/-- A C string of length 10 is ten non-NUL bytes, a NUL, and whatever follows. -/
theorem strlen_eq_ten (buf : List Byte) (h : strlen buf = some 10) :
    ∃ a0 a1 a2 a3 a4 a5 a6 a7 a8 a9 rest,
      buf = a0 :: a1 :: a2 :: a3 :: a4 :: a5 :: a6 :: a7 :: a8 :: a9 :: 0 :: rest ∧
      0 ∉ [a0, a1, a2, a3, a4, a5, a6, a7, a8, a9] := by
  unfold strlen at h
  split at h
  · rename_i hmem
    have hlen : (c_str buf).length = 10 := by simpa using h
    have hsplit : c_str buf ++ buf.dropWhile (fun c => c ≠ 0) = buf :=
      List.takeWhile_append_dropWhile _ buf
    have hnot : 0 ∉ c_str buf := by
      intro h0
      have := List.mem_takeWhile_imp h0
      simp at this
    obtain ⟨a0, a1, a2, a3, a4, a5, a6, a7, a8, a9, r, hr⟩ :=
      ten_cons (c_str buf) (by omega)
    have hr0 : r = [] := by
      have h1 : (a0 :: a1 :: a2 :: a3 :: a4 :: a5 :: a6 :: a7 :: a8 :: a9 :: r).length = 10 := by
        rw [← hr]
        exact hlen
      simp only [List.length_cons] at h1
      exact List.length_eq_zero.mp (by omega)
    subst hr0
    obtain ⟨rest, hd⟩ := dropWhile_nul buf hmem
    refine ⟨a0, a1, a2, a3, a4, a5, a6, a7, a8, a9, rest, ?_, ?_⟩
    · rw [← hsplit, hr, hd]
      rfl
    · rw [← hr]
      exact hnot
  · simp at h

/-- The function `process_key` is its first three steps followed by the reversal loop. -/
theorem process_key_eq (junk : Nat → Byte) (key : List Byte) :
    process_key junk key =
      (before_reverse junk key >>= fun m => reverse_first_half m >>= fun r => pure r.mem) := by
  simp only [process_key, before_reverse, bind_assoc]

/-- The reversal loop on a buffer of at least 5 bytes: two swaps, exit with
`start = end = 2`. -/
theorem reverse_first_half_cons (key temp : List Byte) (log : List Access)
    (k0 k1 k2 k3 k4 : Byte) (rest : List Byte) (hkey : key = k0 :: k1 :: k2 :: k3 :: k4 :: rest) :
    reverse_first_half ⟨key, temp, log⟩ =
      .ok ⟨⟨k4 :: k3 :: k2 :: k1 :: k0 :: rest, temp, log ++ two_swaps_log⟩, 2, 2, 2⟩ := by
  subst hkey
  simp [reverse_first_half, reverse_loop, Mem.read, Mem.store, Mem.bytes, HALF_LENGTH, bind,
    Except.bind, two_swaps_log]

/-- The first three steps on a buffer of at least 10 bytes. -/
theorem before_reverse_cons (junk : Nat → Byte) (a0 a1 a2 a3 a4 a5 a6 a7 a8 a9 : Byte)
    (rest : List Byte) :
    ∃ m, before_reverse junk (a0 :: a1 :: a2 :: a3 :: a4 :: a5 :: a6 :: a7 :: a8 :: a9 :: rest)
        = .ok m ∧
      m.key = nul_padded [a5, a6, a7, a8, a9] ++ [a0, a1, a2, a3, a4] ++ rest := by
  have hcases : a5 = 0 ∨ (a5 ≠ 0 ∧ a6 = 0) ∨ (a5 ≠ 0 ∧ a6 ≠ 0 ∧ a7 = 0) ∨
      (a5 ≠ 0 ∧ a6 ≠ 0 ∧ a7 ≠ 0 ∧ a8 = 0) ∨ (a5 ≠ 0 ∧ a6 ≠ 0 ∧ a7 ≠ 0 ∧ a8 ≠ 0 ∧ a9 = 0) ∨
      (a5 ≠ 0 ∧ a6 ≠ 0 ∧ a7 ≠ 0 ∧ a8 ≠ 0 ∧ a9 ≠ 0) := by tauto
  rcases hcases with h5 | ⟨h5, h6⟩ | ⟨h5, h6, h7⟩ | ⟨h5, h6, h7, h8⟩ | ⟨h5, h6, h7, h8, h9⟩ |
      ⟨h5, h6, h7, h8, h9⟩ <;>
    simp [before_reverse, copy_second_half, strncpy, strncpy_copy, strncpy_pad, move_first_half,
      restore_from_temp, enter, Mem.read, Mem.store, Mem.bytes, HALF_LENGTH, KEY_LENGTH, bind,
      Except.bind, pure, Except.pure, List.range, List.range.loop, List.foldlM, nul_padded,
      c_str, *]

theorem nul_padded_of_ne (a5 a6 a7 a8 a9 : Byte) (h5 : a5 ≠ 0) (h6 : a6 ≠ 0) (h7 : a7 ≠ 0)
    (h8 : a8 ≠ 0) (h9 : a9 ≠ 0) : nul_padded [a5, a6, a7, a8, a9] = [a5, a6, a7, a8, a9] := by
  simp [nul_padded, c_str, *]

theorem nul_padded_five (a5 a6 a7 a8 a9 : Byte) :
    ∃ t0 t1 t2 t3 t4, nul_padded [a5, a6, a7, a8, a9] = [t0, t1, t2, t3, t4] := by
  by_cases h5 : a5 = 0 <;> by_cases h6 : a6 = 0 <;> by_cases h7 : a7 = 0 <;>
    by_cases h8 : a8 = 0 <;> by_cases h9 : a9 = 0 <;> simp [nul_padded, c_str, *]

/-- On a key of 10 characters the run completes and the buffer becomes
`reverse(K[5:10]) ++ K[0:5]`, followed by the untouched rest. -/
theorem process_key_of_is_key (junk : Nat → Byte) (key : List Byte) (hk : is_key key) :
    ∃ a0 a1 a2 a3 a4 a5 a6 a7 a8 a9 rest m,
      key = a0 :: a1 :: a2 :: a3 :: a4 :: a5 :: a6 :: a7 :: a8 :: a9 :: rest ∧
      process_key junk key = .ok m ∧
      m.key = a9 :: a8 :: a7 :: a6 :: a5 :: a0 :: a1 :: a2 :: a3 :: a4 :: rest := by
  obtain ⟨a0, a1, a2, a3, a4, a5, a6, a7, a8, a9, rest, rfl⟩ := ten_cons key hk.1
  obtain ⟨m, hm, hkey, -, -, -⟩ := process_key_cons junk a0 a1 a2 a3 a4 a5 a6 a7 a8 a9 rest
  have h0 := hk.2
  simp [KEY_LENGTH] at h0
  obtain ⟨-, -, -, -, -, h5, h6, h7, h8, h9⟩ := h0
  rw [nul_padded_of_ne a5 a6 a7 a8 a9 (Ne.symm h5) (Ne.symm h6) (Ne.symm h7) (Ne.symm h8)
    (Ne.symm h9)] at hkey
  exact ⟨a0, a1, a2, a3, a4, a5, a6, a7, a8, a9, rest, m, rfl, hm, by simpa using hkey⟩

/-- The output on a buffer whose first 10 bytes are not NUL. -/
theorem process_key_out_cons (junk : Nat → Byte) (a0 a1 a2 a3 a4 a5 a6 a7 a8 a9 : Byte)
    (rest : List Byte) (h5 : a5 ≠ 0) (h6 : a6 ≠ 0) (h7 : a7 ≠ 0) (h8 : a8 ≠ 0) (h9 : a9 ≠ 0) :
    process_key_out junk (a0 :: a1 :: a2 :: a3 :: a4 :: a5 :: a6 :: a7 :: a8 :: a9 :: rest) =
      some (a9 :: a8 :: a7 :: a6 :: a5 :: a0 :: a1 :: a2 :: a3 :: a4 :: rest) := by
  obtain ⟨m, hm, hkey, -⟩ := process_key_cons junk a0 a1 a2 a3 a4 a5 a6 a7 a8 a9 rest
  rw [nul_padded_of_ne a5 a6 a7 a8 a9 h5 h6 h7 h8 h9] at hkey
  simp [process_key_out, hm, hkey]

/-- The bytes of the two strings used as examples. -/
theorem c_chars_examples :
    c_chars "A1B2C3D4E5" = [65, 49, 66, 50, 67, 51, 68, 52, 69, 53] ∧
    c_chars "ABCBAABCBA" = [65, 66, 67, 66, 65, 65, 66, 67, 66, 65] := by
  decide

/-- C1, reversal law: for every key of 10 characters (none of them NUL),
`process_key` completes and the first half of the buffer is the reverse of
the original second half: `output[0:5] = reverse(input[5:10])`, that is
`output[i] = input[9 - i]` for every `i` in `0..4`. -/
theorem reversal_law (junk : Nat → Byte) (key : List Byte) (hk : is_key key) :
    ∃ m, process_key junk key = .ok m ∧
      slice m.key 0 5 = (slice key 5 10).reverse ∧
      ∀ i, i < 5 → ∃ c, key[9 - i]? = some c ∧ m.key[i]? = some c := by
  obtain ⟨a0, a1, a2, a3, a4, a5, a6, a7, a8, a9, rest, m, rfl, hm, hkey⟩ :=
    process_key_of_is_key junk key hk
  refine ⟨m, hm, by simp [slice, hkey], ?_⟩
  intro i hi
  rw [hkey]
  interval_cases i <;> simp

theorem reversal_law_witness :
    is_key security_key ∧
    ∃ m, process_key (fun _ => 170) security_key = .ok m ∧
      slice m.key 0 5 = (slice security_key 5 10).reverse ∧
      ∀ i, i < 5 → ∃ c, security_key[9 - i]? = some c ∧ m.key[i]? = some c :=
  ⟨by decide, reversal_law (fun _ => 170) security_key (by decide)⟩

/-- C2, halves-swap law: for every buffer of at least 10 bytes, so for every
key of exactly 10 characters, `process_key` completes and the second half of
the buffer is the original first half in forward order:
`output[5:10] = input[0:5]`, that is `output[i + 5] = input[i]` for every `i`
in `0..4`. -/
theorem halves_swap_law (junk : Nat → Byte) (key : List Byte) (hk : KEY_LENGTH ≤ key.length) :
    ∃ m, process_key junk key = .ok m ∧
      slice m.key 5 10 = slice key 0 5 ∧
      ∀ i, i < 5 → ∃ c, key[i]? = some c ∧ m.key[i + 5]? = some c := by
  obtain ⟨a0, a1, a2, a3, a4, a5, a6, a7, a8, a9, rest, rfl⟩ := ten_cons key hk
  obtain ⟨m, hm, hkey, -, -, -⟩ := process_key_cons junk a0 a1 a2 a3 a4 a5 a6 a7 a8 a9 rest
  obtain ⟨t0, t1, t2, t3, t4, ht⟩ := nul_padded_five a5 a6 a7 a8 a9
  rw [ht] at hkey
  refine ⟨m, hm, by simp [slice, hkey], ?_⟩
  intro i hi
  rw [hkey]
  interval_cases i <;> simp

theorem halves_swap_law_witness :
    KEY_LENGTH ≤ security_key.length ∧
    ∃ m, process_key (fun _ => 170) security_key = .ok m ∧
      slice m.key 5 10 = slice security_key 0 5 ∧
      ∀ i, i < 5 → ∃ c, security_key[i]? = some c ∧ m.key[i + 5]? = some c :=
  ⟨by decide, halves_swap_law (fun _ => 170) security_key (by decide)⟩

/-- C3, concrete scenario: whatever `temp_key` holds at entry, `process_key`
on the buffer of `main`, `"A1B2C3D4E5"`, completes and leaves it holding
`"5E4D3A1B2C"` (and its terminator), and `main` prints
`Initial Key: A1B2C3D4E5` and `Final Key: FLAG{5E4D3A1B2C}`. -/
theorem concrete_scenario (junk : Nat → Byte) :
    (∃ m, process_key junk security_key = .ok m ∧ m.key = c_literal "5E4D3A1B2C" ∧
      c_str m.key = c_chars "5E4D3A1B2C") ∧
    main junk =
      .ok (c_chars "Initial Key: A1B2C3D4E5\nFinal Key: FLAG\x7b5E4D3A1B2C\x7d\n") := by
  have hs : security_key = [65, 49, 66, 50, 67, 51, 68, 52, 69, 53, 0] := by decide
  obtain ⟨m, hm, hkey, -, -, -⟩ := process_key_cons junk 65 49 66 50 67 51 68 52 69 53 [0]
  rw [← hs] at hm
  have hout : m.key = c_literal "5E4D3A1B2C" := by
    rw [hkey]
    decide
  refine ⟨⟨m, hm, hout, ?_⟩, ?_⟩
  · rw [hout]
    decide
  · simp only [main, hm, bind, Except.bind, pure, Except.pure, hout]
    exact congrArg Except.ok (by decide)

/-- C4, round trip: with `undo(K) = K[5:10] ++ reverse(K[0:5])`, for every
key of 10 characters `undo` applied to the buffer after `process_key` gives
back the 10 characters of the key; and `process_key` is injective on such
keys: two keys with the same output are equal. -/
theorem round_trip (junk junk2 : Nat → Byte) (key key2 : List Byte) (hk : is_key key)
    (hk2 : is_key key2) :
    (∃ m, process_key junk key = .ok m ∧ undo m.key = key.take KEY_LENGTH) ∧
    (process_key_out junk key = process_key_out junk2 key2 → key = key2) := by
  obtain ⟨a0, a1, a2, a3, a4, a5, a6, a7, a8, a9, rest, m, rfl, hm, hkey⟩ :=
    process_key_of_is_key junk key hk
  obtain ⟨b0, b1, b2, b3, b4, b5, b6, b7, b8, b9, rest2, m2, rfl, hm2, hkey2⟩ :=
    process_key_of_is_key junk2 key2 hk2
  refine ⟨⟨m, hm, by simp [undo, slice, hkey, HALF_LENGTH, KEY_LENGTH]⟩, ?_⟩
  intro h
  simp only [process_key_out, hm, hm2, hkey, hkey2] at h
  simp at h
  simp
  tauto

theorem round_trip_witness :
    (∃ m, process_key (fun _ => 170) security_key = .ok m ∧
      undo m.key = security_key.take KEY_LENGTH) ∧
    (process_key_out (fun _ => 170) security_key = process_key_out (fun _ => 85) security_key →
      security_key = security_key) :=
  round_trip (fun _ => 170) (fun _ => 85) security_key security_key (by decide) (by decide)

/-- C5, boundary scenario: for every character `c` (and whatever follows the
key in the buffer), `process_key` applied to the key made of ten copies of
`c` completes and leaves the buffer unchanged. -/
theorem boundary_scenario (junk : Nat → Byte) (c : Byte) (rest : List Byte) :
    ∃ m, process_key junk (List.replicate 10 c ++ rest) = .ok m ∧
      m.key = List.replicate 10 c ++ rest := by
  obtain ⟨m, hm, hkey, -, -, -⟩ := process_key_cons junk c c c c c c c c c c rest
  refine ⟨m, by simpa [List.replicate] using hm, ?_⟩
  rw [hkey]
  by_cases hc : c = 0 <;> simp [nul_padded, c_str, hc, List.replicate]

/-- C6, no out-of-bounds access exactly under the precondition: with every
read and write bounds-checked, on a buffer of at least 10 bytes (a terminator
is not needed) `process_key` completes without a fault and every access it
made is at an index in `0..9` (index 9 of `key` is among them); on every buffer shorter than 10 bytes it stops
at an access to `key` at an index outside the buffer. -/
theorem no_out_of_bounds (junk : Nat → Byte) (key : List Byte) :
    (KEY_LENGTH ≤ key.length →
      ∃ m, process_key junk key = .ok m ∧ (∀ a ∈ m.log, a.index ≤ 9) ∧
        (⟨.key, true, 9⟩ : Access) ∈ m.log) ∧
    (key.length < KEY_LENGTH →
      ∃ a, process_key junk key = .error (.out_of_bounds a) ∧ a.region = .key ∧
        key.length ≤ a.index) := by
  constructor
  · intro hk
    obtain ⟨a0, a1, a2, a3, a4, a5, a6, a7, a8, a9, rest, rfl⟩ := ten_cons key hk
    obtain ⟨m, hm, -, -, hlog, -, hlast⟩ :=
      process_key_cons junk a0 a1 a2 a3 a4 a5 a6 a7 a8 a9 rest
    refine ⟨m, hm, ?_, hlast⟩
    intro a ha
    have h := List.all_eq_true.mp hlog a ha
    simp [KEY_LENGTH] at h
    omega
  · intro hk
    obtain ⟨a, ha, hr, hi, -⟩ := process_key_short junk key hk
    exact ⟨a, ha, hr, hi⟩

theorem no_out_of_bounds_witness :
    (∃ m, process_key (fun _ => 170) (c_chars "A1B2C3D4E5") = .ok m ∧
      (∀ a ∈ m.log, a.index ≤ 9) ∧ (⟨.key, true, 9⟩ : Access) ∈ m.log) ∧
    (∃ a, process_key (fun _ => 170) (c_chars "A1B2C3D4E") = .error (.out_of_bounds a) ∧
      a.region = .key ∧ (c_chars "A1B2C3D4E").length ≤ a.index) :=
  ⟨(no_out_of_bounds (fun _ => 170) (c_chars "A1B2C3D4E5")).1 (by decide),
   (no_out_of_bounds (fun _ => 170) (c_chars "A1B2C3D4E")).2 (by decide)⟩

/-- C7, frame: for every buffer of length `n >= 10`, `process_key` signals no
error, the buffer still has length `n`, and every byte at an index `>= 10`
(the terminator of a 10-character string, the 11th character of a longer key)
is unchanged; the first 10 bytes are transformed exactly as when they are
the whole buffer, and when none of them is NUL they become
`reverse(K[5:10]) ++ K[0:5]`. -/
theorem frame (junk : Nat → Byte) (key : List Byte) (hk : KEY_LENGTH ≤ key.length) :
    ∃ m, process_key junk key = .ok m ∧
      m.key.length = key.length ∧
      (∀ i, KEY_LENGTH ≤ i → m.key[i]? = key[i]?) ∧
      process_key_out junk (key.take KEY_LENGTH) = some (m.key.take KEY_LENGTH) ∧
      (is_key key → m.key.take KEY_LENGTH = (slice key 5 10).reverse ++ slice key 0 5) := by
  obtain ⟨a0, a1, a2, a3, a4, a5, a6, a7, a8, a9, rest, rfl⟩ := ten_cons key hk
  obtain ⟨m, hm, hkey, -, -, -⟩ := process_key_cons junk a0 a1 a2 a3 a4 a5 a6 a7 a8 a9 rest
  obtain ⟨m0, hm0, hkey0, -, -, -⟩ := process_key_cons junk a0 a1 a2 a3 a4 a5 a6 a7 a8 a9 []
  obtain ⟨t0, t1, t2, t3, t4, ht⟩ := nul_padded_five a5 a6 a7 a8 a9
  rw [ht] at hkey hkey0
  have hdrop : m.key.drop 10 = rest := by simp [hkey]
  refine ⟨m, hm, by simp [hkey], ?_, ?_, ?_⟩
  · intro i hi
    have hi10 : i = 10 + (i - 10) := by
      simp only [KEY_LENGTH] at hi
      omega
    rw [hi10, ← List.getElem?_drop, ← List.getElem?_drop, hdrop]
    rfl
  · have htake : List.take KEY_LENGTH
        (a0 :: a1 :: a2 :: a3 :: a4 :: a5 :: a6 :: a7 :: a8 :: a9 :: rest) =
        [a0, a1, a2, a3, a4, a5, a6, a7, a8, a9] := by
      simp [KEY_LENGTH]
    rw [htake]
    simp [process_key_out, hm0, hkey0, hkey, KEY_LENGTH]
  · intro hkk
    have h0 := hkk.2
    simp [KEY_LENGTH] at h0
    obtain ⟨-, -, -, -, -, h5, h6, h7, h8, h9⟩ := h0
    rw [nul_padded_of_ne a5 a6 a7 a8 a9 (Ne.symm h5) (Ne.symm h6) (Ne.symm h7) (Ne.symm h8)
      (Ne.symm h9)] at ht
    simp at ht
    obtain ⟨rfl, rfl, rfl, rfl, rfl⟩ := ht
    simp [hkey, slice, KEY_LENGTH]

theorem frame_witness :
    KEY_LENGTH ≤ (c_literal "A1B2C3D4E5F6").length ∧
    ∃ m, process_key (fun _ => 170) (c_literal "A1B2C3D4E5F6") = .ok m ∧
      m.key.length = (c_literal "A1B2C3D4E5F6").length ∧
      (∀ i, KEY_LENGTH ≤ i → m.key[i]? = (c_literal "A1B2C3D4E5F6")[i]?) ∧
      process_key_out (fun _ => 170) ((c_literal "A1B2C3D4E5F6").take KEY_LENGTH) =
        some (m.key.take KEY_LENGTH) ∧
      (is_key (c_literal "A1B2C3D4E5F6") →
        m.key.take KEY_LENGTH =
          (slice (c_literal "A1B2C3D4E5F6") 5 10).reverse ++ slice (c_literal "A1B2C3D4E5F6") 0 5) :=
  ⟨by decide, frame (fun _ => 170) (c_literal "A1B2C3D4E5F6") (by decide)⟩

/-- C8, length invariant: for every valid input, a C string of length exactly
10, `process_key` completes and the key is still a C string of length exactly
10 (and the buffer keeps its size). -/
theorem length_invariant (junk : Nat → Byte) (key : List Byte) (hk : strlen key = some 10) :
    ∃ m, process_key junk key = .ok m ∧ strlen m.key = some 10 ∧
      m.key.length = key.length := by
  obtain ⟨a0, a1, a2, a3, a4, a5, a6, a7, a8, a9, rest, rfl, h0⟩ := strlen_eq_ten key hk
  obtain ⟨m, hm, hkey, -, -, -⟩ :=
    process_key_cons junk a0 a1 a2 a3 a4 a5 a6 a7 a8 a9 (0 :: rest)
  simp at h0
  obtain ⟨g0, g1, g2, g3, g4, g5, g6, g7, g8, g9⟩ := h0
  rw [nul_padded_of_ne a5 a6 a7 a8 a9 (Ne.symm g5) (Ne.symm g6) (Ne.symm g7) (Ne.symm g8)
    (Ne.symm g9)] at hkey
  refine ⟨m, hm, ?_, by simp [hkey]⟩
  rw [hkey]
  simp [strlen, c_str, List.takeWhile_cons, Ne.symm g0, Ne.symm g1, Ne.symm g2, Ne.symm g3,
    Ne.symm g4, Ne.symm g5, Ne.symm g6, Ne.symm g7, Ne.symm g8, Ne.symm g9]

theorem length_invariant_witness :
    strlen security_key = some 10 ∧
    ∃ m, process_key (fun _ => 170) security_key = .ok m ∧ strlen m.key = some 10 ∧
      m.key.length = security_key.length :=
  ⟨by decide, length_invariant (fun _ => 170) security_key (by decide)⟩

/-- C9, determinism: take two runs of `process_key` on buffers of at least 10
bytes with the same first 10 bytes (in particular on two fresh copies of one
10-character key), each with its own initial content of `temp_key`.  Both
complete, the first 10 bytes of the two outputs are equal, the whole outputs
are equal when the two buffers are, and in neither run is a byte of `temp_key`
read before `process_key` has written it. -/
theorem determinism (junk junk2 : Nat → Byte) (key key2 : List Byte)
    (hk : KEY_LENGTH ≤ key.length) (hk2 : KEY_LENGTH ≤ key2.length)
    (hsame : key.take KEY_LENGTH = key2.take KEY_LENGTH) :
    ∃ m m2, process_key junk key = .ok m ∧ process_key junk2 key2 = .ok m2 ∧
      m.key.take KEY_LENGTH = m2.key.take KEY_LENGTH ∧
      (key = key2 → m.key = m2.key) ∧
      temp_written_before_read m.log [] = true ∧
      temp_written_before_read m2.log [] = true := by
  obtain ⟨a0, a1, a2, a3, a4, a5, a6, a7, a8, a9, rest, rfl⟩ := ten_cons key hk
  obtain ⟨b0, b1, b2, b3, b4, b5, b6, b7, b8, b9, rest2, rfl⟩ := ten_cons key2 hk2
  obtain ⟨m, hm, hkey, -, -, hinit, -⟩ := process_key_cons junk a0 a1 a2 a3 a4 a5 a6 a7 a8 a9 rest
  obtain ⟨m2, hm2, hkey2, -, -, hinit2, -⟩ :=
    process_key_cons junk2 b0 b1 b2 b3 b4 b5 b6 b7 b8 b9 rest2
  simp [KEY_LENGTH] at hsame
  obtain ⟨rfl, rfl, rfl, rfl, rfl, rfl, rfl, rfl, rfl, rfl⟩ := hsame
  obtain ⟨t0, t1, t2, t3, t4, ht⟩ := nul_padded_five a5 a6 a7 a8 a9
  rw [ht] at hkey hkey2
  refine ⟨m, m2, hm, hm2, by simp [hkey, hkey2, KEY_LENGTH], ?_, hinit, hinit2⟩
  intro h
  simp at h
  rw [hkey, hkey2, h]

theorem determinism_witness :
    ∃ m m2, process_key (fun _ => 170) security_key = .ok m ∧
      process_key (fun i => i + 1) security_key = .ok m2 ∧
      m.key.take KEY_LENGTH = m2.key.take KEY_LENGTH ∧
      (security_key = security_key → m.key = m2.key) ∧
      temp_written_before_read m.log [] = true ∧
      temp_written_before_read m2.log [] = true :=
  determinism (fun _ => 170) (fun i => i + 1) security_key security_key (by decide) (by decide)
    rfl

/-- C10 as stated fails: on the 10-byte key `41 42 43 44 45 00 46 47 48 49`
(hex), whose second half starts with a NUL, the first statement of
`process_key` leaves `00 00 00 00 00` in `temp_key[0..4]`, not the original
bytes at index 5..9. -/
theorem step1_arbitrary_content_fails :
    ∃ m, copy_second_half (enter (fun _ => 170) [65, 66, 67, 68, 69, 0, 70, 71, 72, 73]) = .ok m ∧
      m.temp_key.take 5 = [0, 0, 0, 0, 0] ∧
      m.temp_key.take 5 ≠ slice [65, 66, 67, 68, 69, 0, 70, 71, 72, 73] 5 10 := by
  obtain ⟨m, hm, -, htemp⟩ := copy_second_half_cons (fun _ => 170) 65 66 67 68 69 0 70 71 72 73 []
  refine ⟨m, hm, ?_, ?_⟩ <;>
    · rw [htemp]
      decide

/-- C10, amended: for every buffer of at least 10 bytes with arbitrary content
(NUL bytes included, no terminator needed), the first statement of
`process_key` completes, and afterwards the first 5 bytes of `temp_key` equal
the original bytes at index 5..9 of the key if and only if every byte of
index 5..9 from the first NUL on is NUL; in particular they are equal when
none of those bytes is NUL. -/
theorem step1_scratch (junk : Nat → Byte) (key : List Byte) (hk : KEY_LENGTH ≤ key.length) :
    ∃ m, copy_second_half (enter junk key) = .ok m ∧
      (m.temp_key.take 5 = slice key 5 10 ↔
        ∀ c ∈ (slice key 5 10).dropWhile (fun c => c ≠ 0), c = 0) ∧
      (0 ∉ slice key 5 10 → m.temp_key.take 5 = slice key 5 10) := by
  obtain ⟨a0, a1, a2, a3, a4, a5, a6, a7, a8, a9, rest, rfl⟩ := ten_cons key hk
  obtain ⟨m, hm, -, htemp⟩ := copy_second_half_cons junk a0 a1 a2 a3 a4 a5 a6 a7 a8 a9 rest
  obtain ⟨t0, t1, t2, t3, t4, ht⟩ := nul_padded_five a5 a6 a7 a8 a9
  have htake : m.temp_key.take 5 = nul_padded [a5, a6, a7, a8, a9] := by
    rw [htemp, ht]
    rfl
  have hslice : slice (a0 :: a1 :: a2 :: a3 :: a4 :: a5 :: a6 :: a7 :: a8 :: a9 :: rest) 5 10
      = [a5, a6, a7, a8, a9] := by
    simp [slice]
  refine ⟨m, hm, ?_, ?_⟩
  · rw [htake, hslice]
    exact nul_padded_eq_iff a5 a6 a7 a8 a9
  rw [htake, hslice]
  intro h0
  simp at h0
  obtain ⟨h5, h6, h7, h8, h9⟩ := h0
  exact nul_padded_of_ne a5 a6 a7 a8 a9 (Ne.symm h5) (Ne.symm h6) (Ne.symm h7) (Ne.symm h8)
    (Ne.symm h9)

theorem step1_scratch_witness :
    KEY_LENGTH ≤ (c_chars "A1B2C3D4E5").length ∧
    ∃ m, copy_second_half (enter (fun _ => 170) (c_chars "A1B2C3D4E5")) = .ok m ∧
      (m.temp_key.take 5 = slice (c_chars "A1B2C3D4E5") 5 10 ↔
        ∀ c ∈ (slice (c_chars "A1B2C3D4E5") 5 10).dropWhile (fun c => c ≠ 0), c = 0) ∧
      (0 ∉ slice (c_chars "A1B2C3D4E5") 5 10 →
        m.temp_key.take 5 = slice (c_chars "A1B2C3D4E5") 5 10) :=
  ⟨by decide, step1_scratch (fun _ => 170) (c_chars "A1B2C3D4E5") (by decide)⟩

/-- C11, two swaps: on every buffer of at least 10 bytes the reversal loop of
step 4, entered with `start = 0` and `end = 4`, terminates after running its
body exactly twice, exits with `start = end = 2`, and accesses only indices
0, 4 (first swap) and 1, 3 (second swap) of `key`; the middle byte `key[2]`
is not moved by it, and for every key of 10 characters `output[2] = input[7]`. -/
theorem two_swaps (junk : Nat → Byte) (key : List Byte) (hk : KEY_LENGTH ≤ key.length) :
    ∃ m r, before_reverse junk key = .ok m ∧ reverse_first_half m = .ok r ∧
      process_key junk key = .ok r.mem ∧
      r.swaps = 2 ∧ r.start = 2 ∧ r.stop = 2 ∧
      r.mem.log = m.log ++ two_swaps_log ∧
      slice r.mem.key 0 5 = (slice m.key 0 5).reverse ∧
      (∃ c, m.key[2]? = some c ∧ r.mem.key[2]? = some c) ∧
      (is_key key → ∃ c, key[7]? = some c ∧ r.mem.key[2]? = some c) := by
  obtain ⟨a0, a1, a2, a3, a4, a5, a6, a7, a8, a9, rest, rfl⟩ := ten_cons key hk
  obtain ⟨⟨mkey, mtemp, mlog⟩, hm, hkey⟩ :=
    before_reverse_cons junk a0 a1 a2 a3 a4 a5 a6 a7 a8 a9 rest
  obtain ⟨t0, t1, t2, t3, t4, ht⟩ := nul_padded_five a5 a6 a7 a8 a9
  rw [ht] at hkey
  have hkey2 : mkey = t0 :: t1 :: t2 :: t3 :: t4 :: (a0 :: a1 :: a2 :: a3 :: a4 :: rest) := by
    simpa using hkey
  have hr := reverse_first_half_cons mkey mtemp mlog t0 t1 t2 t3 t4 _ hkey2
  refine ⟨_, _, hm, hr, ?_, rfl, rfl, rfl, rfl, ?_, ?_, ?_⟩
  · rw [process_key_eq, hm]
    simp only [bind, Except.bind, hr]
    rfl
  · simp [slice, hkey2]
  · exact ⟨t2, by simp [hkey2], by simp⟩
  · intro hkk
    have h0 := hkk.2
    simp [KEY_LENGTH] at h0
    obtain ⟨-, -, -, -, -, h5, h6, h7, h8, h9⟩ := h0
    rw [nul_padded_of_ne a5 a6 a7 a8 a9 (Ne.symm h5) (Ne.symm h6) (Ne.symm h7) (Ne.symm h8)
      (Ne.symm h9)] at ht
    simp at ht
    exact ⟨a7, by simp, by simp [ht.2.2.1]⟩

theorem two_swaps_witness :
    KEY_LENGTH ≤ security_key.length ∧
    ∃ m r, before_reverse (fun _ => 170) security_key = .ok m ∧ reverse_first_half m = .ok r ∧
      process_key (fun _ => 170) security_key = .ok r.mem ∧
      r.swaps = 2 ∧ r.start = 2 ∧ r.stop = 2 ∧
      r.mem.log = m.log ++ two_swaps_log ∧
      slice r.mem.key 0 5 = (slice m.key 0 5).reverse ∧
      (∃ c, m.key[2]? = some c ∧ r.mem.key[2]? = some c) ∧
      (is_key security_key → ∃ c, security_key[7]? = some c ∧ r.mem.key[2]? = some c) :=
  ⟨by decide, two_swaps (fun _ => 170) security_key (by decide)⟩

/-- C12, asymmetry: for the 10-character key `"A1B2C3D4E5"` the output of
`process_key` is `reverse(K[5:10]) ++ K[0:5]`, and it differs both from the
plain half swap `K[5:10] ++ K[0:5]` and from
`reverse(K[5:10]) ++ reverse(K[0:5])`: only the half moved to the front is
reversed. -/
theorem asymmetry (junk : Nat → Byte) :
    is_key (c_chars "A1B2C3D4E5") ∧
    ∃ m, process_key junk (c_chars "A1B2C3D4E5") = .ok m ∧
      m.key = (slice (c_chars "A1B2C3D4E5") 5 10).reverse ++ slice (c_chars "A1B2C3D4E5") 0 5 ∧
      m.key ≠ slice (c_chars "A1B2C3D4E5") 5 10 ++ slice (c_chars "A1B2C3D4E5") 0 5 ∧
      m.key ≠ (slice (c_chars "A1B2C3D4E5") 5 10).reverse ++
        (slice (c_chars "A1B2C3D4E5") 0 5).reverse := by
  obtain ⟨m, hm, hkey, -⟩ := process_key_cons junk 65 49 66 50 67 51 68 52 69 53 []
  rw [c_chars_examples.1]
  refine ⟨by decide, m, hm, ?_, ?_, ?_⟩ <;>
    · rw [hkey]
      decide

/-- C13, order 4: for every key of 10 characters, two calls of `process_key`
in a row leave `reverse(K[0:5]) ++ reverse(K[5:10])` in the first 10 bytes
(each half reversed in place) and the rest of the buffer unchanged, and four
calls give the buffer back; `process_key` is not an involution: on
`"A1B2C3D4E5"` two calls do not give the key back. -/
theorem order_four (junk : Nat → Nat → Byte) (key : List Byte) (hk : is_key key) :
    (∃ out, process_key_times junk 2 key = some out ∧
      out.take 10 = (slice key 0 5).reverse ++ (slice key 5 10).reverse ∧
      out.drop 10 = key.drop 10) ∧
    process_key_times junk 4 key = some key ∧
    (is_key security_key ∧ process_key_times junk 2 security_key ≠ some security_key) := by
  obtain ⟨a0, a1, a2, a3, a4, a5, a6, a7, a8, a9, rest, rfl⟩ := ten_cons key hk.1
  have h0 := hk.2
  simp [KEY_LENGTH] at h0
  obtain ⟨g0, g1, g2, g3, g4, g5, g6, g7, g8, g9⟩ := h0
  have n0 := Ne.symm g0
  have n1 := Ne.symm g1
  have n2 := Ne.symm g2
  have n3 := Ne.symm g3
  have n4 := Ne.symm g4
  have n5 := Ne.symm g5
  have n6 := Ne.symm g6
  have n7 := Ne.symm g7
  have n8 := Ne.symm g8
  have n9 := Ne.symm g9
  have hs : security_key = [65, 49, 66, 50, 67, 51, 68, 52, 69, 53, 0] := by decide
  refine ⟨⟨a4 :: a3 :: a2 :: a1 :: a0 :: a9 :: a8 :: a7 :: a6 :: a5 :: rest, ?_, ?_, ?_⟩,
    ?_, by decide, ?_⟩
  · simp only [process_key_times]
    rw [process_key_out_cons _ a0 a1 a2 a3 a4 a5 a6 a7 a8 a9 rest n5 n6 n7 n8 n9]
    simp only [Option.bind]
    rw [process_key_out_cons _ a9 a8 a7 a6 a5 a0 a1 a2 a3 a4 rest n0 n1 n2 n3 n4]
  · simp [slice]
  · simp
  · simp only [process_key_times]
    rw [process_key_out_cons _ a0 a1 a2 a3 a4 a5 a6 a7 a8 a9 rest n5 n6 n7 n8 n9]
    simp only [Option.bind]
    rw [process_key_out_cons _ a9 a8 a7 a6 a5 a0 a1 a2 a3 a4 rest n0 n1 n2 n3 n4]
    simp only [Option.bind]
    rw [process_key_out_cons _ a4 a3 a2 a1 a0 a9 a8 a7 a6 a5 rest n9 n8 n7 n6 n5]
    simp only [Option.bind]
    rw [process_key_out_cons _ a5 a6 a7 a8 a9 a4 a3 a2 a1 a0 rest n4 n3 n2 n1 n0]
  · rw [hs]
    simp only [process_key_times]
    rw [process_key_out_cons _ 65 49 66 50 67 51 68 52 69 53 [0] (by decide) (by decide)
      (by decide) (by decide) (by decide)]
    simp only [Option.bind]
    rw [process_key_out_cons _ 53 69 52 68 51 65 49 66 50 67 [0] (by decide) (by decide)
      (by decide) (by decide) (by decide)]
    decide

theorem order_four_witness :
    (∃ out, process_key_times (fun _ _ => 170) 2 (c_chars "ABCDEFGHIJ") = some out ∧
      out.take 10 = (slice (c_chars "ABCDEFGHIJ") 0 5).reverse ++
        (slice (c_chars "ABCDEFGHIJ") 5 10).reverse ∧
      out.drop 10 = (c_chars "ABCDEFGHIJ").drop 10) ∧
    process_key_times (fun _ _ => 170) 4 (c_chars "ABCDEFGHIJ") = some (c_chars "ABCDEFGHIJ") ∧
    (is_key security_key ∧
      process_key_times (fun _ _ => 170) 2 security_key ≠ some security_key) :=
  order_four (fun _ _ => 170) (c_chars "ABCDEFGHIJ") (by decide)

/-- C14, the scratch copy stops at a NUL and zero-pads: for every buffer of
at least 10 bytes whose second half contains a NUL, with `j` the least index
in `0..4` such that `input[5 + j] = 0`, after step 1 the scratch holds
`input[5 .. 5 + j)` followed by `5 - j` NUL bytes, and `process_key`
completes with `output[4 - i] = input[5 + i]` for `i < j`,
`output[4 - i] = 0` for `j <= i <= 4`, and `output[5:10] = input[0:5]`.
On the 10-byte buffer `41 42 43 44 45 00 46 47 48 49` (hex), which has a
non-NUL byte after the first NUL of its second half, `output[0:5]` differs
from `reverse(input[5:10])` while `output[5:10] = input[0:5]` holds. -/
theorem scratch_stops_at_nul (junk : Nat → Byte) (key : List Byte) (j : Nat)
    (hk : KEY_LENGTH ≤ key.length) (hj : j < 5) (hnul : key[5 + j]? = some 0)
    (hleast : ∀ i, i < j → key[5 + i]? ≠ some 0) :
    (∃ m1, copy_second_half (enter junk key) = .ok m1 ∧
      m1.temp_key.take 5 = slice key 5 (5 + j) ++ List.replicate (5 - j) 0) ∧
    (∃ m, process_key junk key = .ok m ∧
      (∀ i, i < j → m.key[4 - i]? = key[5 + i]?) ∧
      (∀ i, j ≤ i → i ≤ 4 → m.key[4 - i]? = some 0) ∧
      slice m.key 5 10 = slice key 0 5) ∧
    (∃ m, process_key junk [65, 66, 67, 68, 69, 0, 70, 71, 72, 73] = .ok m ∧
      slice m.key 0 5 ≠ (slice [65, 66, 67, 68, 69, 0, 70, 71, 72, 73] 5 10).reverse ∧
      slice m.key 5 10 = slice [65, 66, 67, 68, 69, 0, 70, 71, 72, 73] 0 5) := by
  obtain ⟨a0, a1, a2, a3, a4, a5, a6, a7, a8, a9, rest, rfl⟩ := ten_cons key hk
  obtain ⟨m1, hm1, -, htemp⟩ := copy_second_half_cons junk a0 a1 a2 a3 a4 a5 a6 a7 a8 a9 rest
  obtain ⟨m, hm, hkey, -⟩ := process_key_cons junk a0 a1 a2 a3 a4 a5 a6 a7 a8 a9 rest
  obtain ⟨mc, hmc, hkeyc, -⟩ := process_key_cons junk 65 66 67 68 69 0 70 71 72 73 []
  have h5 : 0 < j → a5 ≠ 0 := fun h => by simpa using hleast 0 h
  have h6 : 1 < j → a6 ≠ 0 := fun h => by simpa using hleast 1 h
  have h7 : 2 < j → a7 ≠ 0 := fun h => by simpa using hleast 2 h
  have h8 : 3 < j → a8 ≠ 0 := fun h => by simpa using hleast 3 h
  refine ⟨⟨m1, hm1, ?_⟩, ⟨m, hm, ?_, ?_, ?_⟩, ⟨mc, hmc, ?_, ?_⟩⟩
  · rw [htemp]
    interval_cases j <;> simp at hnul h5 h6 h7 h8 <;> simp [nul_padded, c_str, slice, *]
  · intro i hi
    rw [hkey]
    interval_cases j <;> simp at hnul h5 h6 h7 h8 <;> interval_cases i <;>
      simp [nul_padded, c_str, *]
  · intro i hji hi
    rw [hkey]
    interval_cases j <;> simp at hnul h5 h6 h7 h8 <;> interval_cases i <;>
      simp [nul_padded, c_str, *]
  · obtain ⟨t0, t1, t2, t3, t4, ht⟩ := nul_padded_five a5 a6 a7 a8 a9
    rw [hkey, ht]
    simp [slice]
  · rw [hkeyc]
    decide
  · rw [hkeyc]
    decide

theorem scratch_stops_at_nul_witness :
    (∃ m1, copy_second_half (enter (fun _ => 170) [65, 66, 67, 68, 69, 70, 71, 0, 72, 73])
        = .ok m1 ∧
      m1.temp_key.take 5 = slice [65, 66, 67, 68, 69, 70, 71, 0, 72, 73] 5 (5 + 2) ++
        List.replicate (5 - 2) 0) ∧
    (∃ m, process_key (fun _ => 170) [65, 66, 67, 68, 69, 70, 71, 0, 72, 73] = .ok m ∧
      (∀ i, i < 2 → m.key[4 - i]? = [65, 66, 67, 68, 69, 70, 71, 0, 72, 73][5 + i]?) ∧
      (∀ i, 2 ≤ i → i ≤ 4 → m.key[4 - i]? = some 0) ∧
      slice m.key 5 10 = slice [65, 66, 67, 68, 69, 70, 71, 0, 72, 73] 0 5) ∧
    (∃ m, process_key (fun _ => 170) [65, 66, 67, 68, 69, 0, 70, 71, 72, 73] = .ok m ∧
      slice m.key 0 5 ≠ (slice [65, 66, 67, 68, 69, 0, 70, 71, 72, 73] 5 10).reverse ∧
      slice m.key 5 10 = slice [65, 66, 67, 68, 69, 0, 70, 71, 72, 73] 0 5) :=
  scratch_stops_at_nul (fun _ => 170) [65, 66, 67, 68, 69, 70, 71, 0, 72, 73] 2 (by decide)
    (by decide) (by decide) (by decide)

/-- C15, fixed points: for every key of 10 characters, `process_key` leaves
the buffer as it was if and only if the two halves of the key are equal and
that half is a palindrome (`K[i] = K[i + 5]` and `K[i] = K[4 - i]` for every
`i` in `0..4`).  So a key of ten equal characters is fixed, and so is
`"ABCBAABCBA"`, which is not of that kind. -/
theorem fixed_points (junk : Nat → Byte) (key : List Byte) (hk : is_key key) :
    (process_key_out junk key = some key ↔
      ∀ i, i < 5 → key[i]? = key[i + 5]? ∧ key[i]? = key[4 - i]?) ∧
    (∀ c, c ≠ 0 → process_key_out junk (List.replicate 10 c) = some (List.replicate 10 c)) ∧
    process_key_out junk (c_chars "ABCBAABCBA") = some (c_chars "ABCBAABCBA") ∧
    ¬ ∃ c, c_chars "ABCBAABCBA" = List.replicate 10 c := by
  obtain ⟨a0, a1, a2, a3, a4, a5, a6, a7, a8, a9, rest, rfl⟩ := ten_cons key hk.1
  have h0 := hk.2
  simp [KEY_LENGTH] at h0
  obtain ⟨-, -, -, -, -, g5, g6, g7, g8, g9⟩ := h0
  refine ⟨?_, ?_, ?_, ?_⟩
  · rw [process_key_out_cons junk a0 a1 a2 a3 a4 a5 a6 a7 a8 a9 rest (Ne.symm g5) (Ne.symm g6)
      (Ne.symm g7) (Ne.symm g8) (Ne.symm g9)]
    constructor
    · intro h
      simp at h
      obtain ⟨e0, e1, e2, e3, e4, e5, e6, e7, e8, e9⟩ := h
      intro i hi
      interval_cases i <;> simp
      · exact ⟨e5, e5.trans e4⟩
      · exact ⟨e6, e6.trans e3⟩
      · exact e7
      · exact ⟨e8, (e6.trans e3).symm⟩
      · exact ⟨e9, (e5.trans e4).symm⟩
    · intro h
      have c0 := h 0 (by decide)
      have c1 := h 1 (by decide)
      have c2 := h 2 (by decide)
      have c3 := h 3 (by decide)
      have c4 := h 4 (by decide)
      simp at c0 c1 c2 c3 c4
      obtain ⟨c05, c04⟩ := c0
      obtain ⟨c16, c13⟩ := c1
      obtain ⟨c38, -⟩ := c3
      obtain ⟨c49, -⟩ := c4
      simp
      exact ⟨(c04.trans c49).symm, (c13.trans c38).symm, c2.symm, (c13.symm.trans c16).symm,
        (c04.symm.trans c05).symm, c05, c16, c2, c38, c49⟩
  · intro c hc
    exact process_key_out_cons junk c c c c c c c c c c [] hc hc hc hc hc
  · rw [c_chars_examples.2]
    exact process_key_out_cons junk 65 66 67 66 65 65 66 67 66 65 [] (by decide) (by decide)
      (by decide) (by decide) (by decide)
  · rw [c_chars_examples.2]
    rintro ⟨c, hc⟩
    have h1 : ([65, 66, 67, 66, 65, 65, 66, 67, 66, 65] : List Byte)[0]? =
        (List.replicate 10 c)[0]? := by rw [hc]
    have h2 : ([65, 66, 67, 66, 65, 65, 66, 67, 66, 65] : List Byte)[1]? =
        (List.replicate 10 c)[1]? := by rw [hc]
    simp [List.replicate] at h1 h2
    subst h1
    exact absurd h2 (by decide)

theorem fixed_points_witness :
    (process_key_out (fun _ => 170) security_key = some security_key ↔
      ∀ i, i < 5 → security_key[i]? = security_key[i + 5]? ∧
        security_key[i]? = security_key[4 - i]?) ∧
    (∀ c, c ≠ 0 →
      process_key_out (fun _ => 170) (List.replicate 10 c) = some (List.replicate 10 c)) ∧
    process_key_out (fun _ => 170) (c_chars "ABCBAABCBA") = some (c_chars "ABCBAABCBA") ∧
    ¬ ∃ c, c_chars "ABCBAABCBA" = List.replicate 10 c :=
  fixed_points (fun _ => 170) security_key (by decide)

end CyberGauntlet
